import Mathlib

/-!
Verification of the batch-job lifecycle manager of src/src/batch_manager.py.

The development shallowly embeds the parts of the program the claims are
about:

* a JSON value type together with a parser (modelling what json.load
  accepts) and a printer for job tables (modelling json.dump with
  indent=2, as save_jobs calls it);
* the job table and job record data model, with the submit / check /
  process operations of BatchManager translated function by function;
* provider interactions are abstracted as an oracle argument: the code is
  single-threaded and every provider call either returns a response or
  raises, which the oracle decides.

Strings are modelled as Lean strings, file contents as List Char, and a
raised Python exception as Except.error.
-/

namespace BatchManager

/-- JSON values as produced by json.load.  Numbers are restricted to
integers: no float literal ever appears in the job store or in the result
shapes the manager reads. -/
inductive Json where
  | null : Json
  | jbool : Bool → Json
  | jnum : Int → Json
  | jstr : String → Json
  | jarr : List Json → Json
  | jobj : List (String × Json) → Json
deriving Repr

/-- Whitespace accepted between JSON tokens (as json.load skips it). -/
def isWsChar (c : Char) : Bool :=
  c = ' ' || c = '\n' || c = '\t' || c = '\r'

/-- Drop leading JSON whitespace. -/
def skipWs : List Char → List Char
  | [] => []
  | c :: cs => if isWsChar c then skipWs cs else c :: cs

/-- Resolve a single escape character after a backslash (the escapes
json.load accepts, minus the \uXXXX form, which never occurs in the
ASCII-safe strings the manager stores). -/
def unescapeChar (c : Char) : Option Char :=
  if c = '"' then some '"'
  else if c = '\\' then some '\\'
  else if c = '/' then some '/'
  else if c = 'n' then some '\n'
  else if c = 't' then some '\t'
  else if c = 'r' then some '\r'
  else if c = 'b' then some (Char.ofNat 8)
  else if c = 'f' then some (Char.ofNat 12)
  else none

/-- Parse the body of a JSON string after the opening quote; returns the
decoded content and the input following the closing quote. -/
def parseStrBody : List Char → Option (List Char × List Char)
  | [] => none
  | '"' :: cs => some ([], cs)
  | '\\' :: cs =>
    match cs with
    | [] => none
    | e :: cs' =>
      match unescapeChar e, parseStrBody cs' with
      | some c', some (s, rest) => some (c' :: s, rest)
      | _, _ => none
  | c :: cs =>
    match parseStrBody cs with
    | some (s, rest) => some (c :: s, rest)
    | none => none

/-- Parse a nonempty run of decimal digits into a natural number. -/
def parseDigits : List Char → Nat → Option (Nat × List Char)
  | [], _ => none
  | c :: cs, acc =>
    if c.isDigit then
      let acc' := acc * 10 + (c.toNat - 48)
      match cs with
      | [] => some (acc', [])
      | c' :: _ => if c'.isDigit then parseDigits cs acc' else some (acc', cs)
    else none

mutual

/-- Fuel-indexed JSON value parser (recursive descent, as json.load). -/
def parseVal : Nat → List Char → Option (Json × List Char)
  | 0, _ => none
  | fuel + 1, cs =>
    match skipWs cs with
    | 'n' :: 'u' :: 'l' :: 'l' :: rest => some (Json.null, rest)
    | 't' :: 'r' :: 'u' :: 'e' :: rest => some (Json.jbool true, rest)
    | 'f' :: 'a' :: 'l' :: 's' :: 'e' :: rest => some (Json.jbool false, rest)
    | '"' :: rest =>
      match parseStrBody rest with
      | some (s, rest') => some (Json.jstr (String.mk s), rest')
      | none => none
    | '[' :: rest =>
      (match skipWs rest with
       | ']' :: rest' => some (Json.jarr [], rest')
       | _ =>
         match parseElems fuel rest with
         | some (vs, rest') => some (Json.jarr vs, rest')
         | none => none)
    | '{' :: rest =>
      (match skipWs rest with
       | '}' :: rest' => some (Json.jobj [], rest')
       | _ =>
         match parseMembers fuel rest with
         | some (ms, rest') => some (Json.jobj ms, rest')
         | none => none)
    | '-' :: rest =>
      (match parseDigits rest 0 with
       | some (n, rest') => some (Json.jnum (-(n : Int)), rest')
       | none => none)
    | c :: rest =>
      if c.isDigit then
        match parseDigits (c :: rest) 0 with
        | some (n, rest') => some (Json.jnum (n : Int), rest')
        | none => none
      else none
    | [] => none

/-- Parse a nonempty comma-separated list of array elements up to the
closing bracket. -/
def parseElems : Nat → List Char → Option (List Json × List Char)
  | 0, _ => none
  | fuel + 1, cs =>
    match parseVal fuel cs with
    | none => none
    | some (v, rest) =>
      match skipWs rest with
      | ',' :: rest' =>
        (match parseElems fuel rest' with
         | some (vs, rest'') => some (v :: vs, rest'')
         | none => none)
      | ']' :: rest' => some ([v], rest')
      | _ => none

/-- Parse a nonempty comma-separated list of object members up to the
closing brace. -/
def parseMembers : Nat → List Char → Option (List (String × Json) × List Char)
  | 0, _ => none
  | fuel + 1, cs =>
    match skipWs cs with
    | '"' :: rest =>
      (match parseStrBody rest with
       | none => none
       | some (k, rest1) =>
         match skipWs rest1 with
         | ':' :: rest2 =>
           (match parseVal fuel rest2 with
            | none => none
            | some (v, rest3) =>
              match skipWs rest3 with
              | ',' :: rest4 =>
                (match parseMembers fuel rest4 with
                 | some (ms, rest5) => some ((String.mk k, v) :: ms, rest5)
                 | none => none)
              | '}' :: rest4 => some ([(String.mk k, v)], rest4)
              | _ => none)
         | _ => none)
    | _ => none

end

/-- Parse a whole JSON document, requiring that nothing but whitespace
follows the value (as json.load does). -/
def parseJson (cs : List Char) : Option Json :=
  match parseVal (cs.length + 1) cs with
  | some (v, rest) => if skipWs rest = [] then some v else none
  | none => none

/-!
The job store file.  save_jobs writes json.dump(jobs, f, indent=2) where
jobs is a dict mapping the provider-issued batch identifier to a job
record, itself a flat dict of string and boolean fields.  The printer
below reproduces json.dump's output, with indent=2, on exactly that
shape of value.
-/

/-- A scalar field value of a job record as stored on disk. -/
inductive FlatVal where
  | fstr : String → FlatVal
  | fbool : Bool → FlatVal
deriving Repr, DecidableEq

/-- One job record as stored: a flat JSON object. -/
abbrev StoredRecord := List (String × FlatVal)

/-- The job table as stored: batch identifier to record. -/
abbrev StoredTable := List (String × StoredRecord)

/-- The JSON value a stored flat field denotes. -/
def FlatVal.toJson : FlatVal → Json
  | .fstr s => Json.jstr s
  | .fbool b => Json.jbool b

/-- The JSON value a stored table denotes (what json.load returns for the
file save_jobs wrote). -/
def tableJson (t : StoredTable) : Json :=
  Json.jobj (t.map fun row => (row.1, Json.jobj (row.2.map fun f => (f.1, f.2.toJson))))

/-- Indentation: n spaces. -/
def spc (n : Nat) : List Char := List.replicate n ' '

/-- Escaping of one character inside a JSON string literal, as json.dump
performs it for the characters that can occur here. -/
def escChar (c : Char) : List Char :=
  if c = '"' then ['\\', '"']
  else if c = '\\' then ['\\', '\\']
  else if c = '\n' then ['\\', 'n']
  else if c = '\t' then ['\\', 't']
  else if c = '\r' then ['\\', 'r']
  else [c]

/-- Escape a whole string body. -/
def escList : List Char → List Char
  | [] => []
  | c :: cs => escChar c ++ escList cs

/-- A quoted JSON string literal. -/
def quoteStr (s : String) : List Char :=
  '"' :: (escList s.data ++ ['"'])

/-- json.dump of a scalar field value. -/
def dumpFlat : FlatVal → List Char
  | .fstr s => quoteStr s
  | .fbool true => ['t', 'r', 'u', 'e']
  | .fbool false => ['f', 'a', 'l', 's', 'e']

/-- json.dump(…, indent=2): the members of a record object, one per line
at indentation ind, a ",\n" separator between consecutive members. -/
def dumpFieldList (ind : Nat) : StoredRecord → List Char
  | [] => []
  | (k, v) :: rest =>
    spc ind ++ quoteStr k ++ [':', ' '] ++ dumpFlat v ++
      (if rest.isEmpty then [] else [',', '\n'] ++ dumpFieldList ind rest)

/-- json.dump(…, indent=2) of one record object whose opening brace sits
at indentation ind. -/
def dumpRecord (ind : Nat) : StoredRecord → List Char
  | [] => ['{', '}']
  | f :: fs => ['{', '\n'] ++ dumpFieldList (ind + 2) (f :: fs) ++ ['\n'] ++ spc ind ++ ['}']

/-- The rows of the table object, one "batch_id": record per line. -/
def dumpTableRows : StoredTable → List Char
  | [] => []
  | (k, r) :: rest =>
    spc 2 ++ quoteStr k ++ [':', ' '] ++ dumpRecord 2 r ++
      (if rest.isEmpty then [] else [',', '\n'] ++ dumpTableRows rest)

/-- json.dump(jobs, f, indent=2) on the whole job table, byte for byte. -/
def dumpTable : StoredTable → List Char
  | [] => ['{', '}']
  | row :: rows => ['{', '\n'] ++ dumpTableRows (row :: rows) ++ ['\n', '}']

/-- save_jobs: opens the metadata file in write mode (truncating it) and
writes json.dump(jobs, f, indent=2); the resulting file content. -/
def save_jobs (t : StoredTable) : List Char := dumpTable t

/-- The file content left behind when the process dies after save_jobs
has opened the file in write mode (truncating it to empty) and the dump
has emitted only the first k bytes. -/
def save_jobs_truncated (t : StoredTable) (k : Nat) : List Char :=
  (dumpTable t).take k

/-- load_jobs: if the metadata file does not exist, return the empty
table; otherwise json.load its content (none models the json.load
exception on unparseable content). -/
def load_jobs (file : Option (List Char)) : Option Json :=
  match file with
  | none => some (Json.jobj [])
  | some bytes => parseJson bytes

/-- A single character json.dump emits verbatim inside a string literal:
printable ASCII, neither a quote nor a backslash. -/
def safeChar (c : Char) : Bool :=
  32 ≤ c.toNat && c.toNat ≤ 126 && c ≠ '"' && c ≠ '\\'

/-- A string is safe when every character is; batch identifiers, ISO
timestamps, paths, model keys and status words all are. -/
def safeString (s : String) : Bool :=
  s.data.all safeChar

/-- A scalar field value all of whose string content is safe. -/
def flatSafe : FlatVal → Bool
  | .fstr s => safeString s
  | .fbool _ => true

/-- A stored record all of whose keys and string values are safe. -/
def recordSafe (r : StoredRecord) : Bool :=
  r.all fun f => safeString f.1 && flatSafe f.2

/-- A stored table is well-formed when every key and every string in it
is safe.  (A Python dict additionally guarantees that keys are unique;
the round-trip proof does not need that.) -/
def wellFormedTable (t : StoredTable) : Bool :=
  t.all fun row => safeString row.1 && recordSafe row.2


/-!
Round-trip lemmas: parsing what dumpTable printed.
-/


theorem skipWs_cons_ws {c : Char} (h : isWsChar c = true) (cs : List Char) :
    skipWs (c :: cs) = skipWs cs := by
  simp [skipWs, h]

theorem skipWs_cons_not_ws {c : Char} (h : isWsChar c = false) (cs : List Char) :
    skipWs (c :: cs) = c :: cs := by
  simp [skipWs, h]

theorem skipWs_spc (n : Nat) (cs : List Char) : skipWs (spc n ++ cs) = skipWs cs := by
  induction n with
  | zero => simp [spc]
  | succ m ih =>
    simp only [spc, List.replicate_succ, List.cons_append]
    rw [skipWs_cons_ws (by decide)]
    exact ih

theorem escChar_safe {c : Char} (h : safeChar c = true) : escChar c = [c] := by
  simp only [safeChar, Bool.and_eq_true, decide_eq_true_eq] at h
  obtain ⟨⟨⟨h1, h2⟩, h3⟩, h4⟩ := h
  have hn : c ≠ '\n' := by intro he; subst he; simp at h1
  have ht : c ≠ '\t' := by intro he; subst he; simp at h1
  have hr : c ≠ '\r' := by intro he; subst he; simp at h1
  simp [escChar, h3, h4, hn, ht, hr]

theorem parseStrBody_safe (l : List Char) (rest : List Char)
    (h : l.all safeChar = true) :
    parseStrBody (escList l ++ '"' :: rest) = some (l, rest) := by
  induction l with
  | nil =>
    simp [escList, parseStrBody]
  | cons c cs ih =>
    simp only [List.all_cons, Bool.and_eq_true] at h
    rw [escList, escChar_safe h.1]
    simp only [List.cons_append, List.nil_append, List.append_assoc]
    have h3 : c ≠ '"' := by
      simp only [safeChar, Bool.and_eq_true, decide_eq_true_eq] at *
      exact h.1.1.2
    have h4 : c ≠ '\\' := by
      simp only [safeChar, Bool.and_eq_true, decide_eq_true_eq] at *
      exact h.1.2
    simp [parseStrBody, h3, h4, ih h.2]



theorem skipWs_idem (cs : List Char) : skipWs (skipWs cs) = skipWs cs := by
  induction cs with
  | nil => simp [skipWs]
  | cons c cs ih =>
    by_cases h : isWsChar c = true
    · rw [skipWs_cons_ws h, ih]
    · rw [skipWs_cons_not_ws (by simpa using h), skipWs_cons_not_ws (by simpa using h)]

theorem parseVal_cons_ws {c : Char} (h : isWsChar c = true) (fuel : Nat) (cs : List Char) :
    parseVal fuel (c :: cs) = parseVal fuel cs := by
  cases fuel with
  | zero => rfl
  | succ g => rw [parseVal, parseVal, skipWs_cons_ws h]

theorem parseMembers_cons_ws {c : Char} (h : isWsChar c = true) (fuel : Nat) (cs : List Char) :
    parseMembers fuel (c :: cs) = parseMembers fuel cs := by
  cases fuel with
  | zero => rfl
  | succ g => rw [parseMembers, parseMembers, skipWs_cons_ws h]

theorem parseMembers_skipWs (fuel : Nat) (cs : List Char) :
    parseMembers fuel (skipWs cs) = parseMembers fuel cs := by
  cases fuel with
  | zero => rfl
  | succ g => rw [parseMembers, parseMembers, skipWs_idem]



theorem parseVal_quote (fuel : Nat) (cs : List Char) :
    parseVal (fuel + 1) ('"' :: cs) =
      match parseStrBody cs with
      | some (s, rest') => some (Json.jstr (String.mk s), rest')
      | none => none := rfl

theorem parseVal_true (fuel : Nat) (cs : List Char) :
    parseVal (fuel + 1) ('t' :: 'r' :: 'u' :: 'e' :: cs) = some (Json.jbool true, cs) := rfl

theorem parseVal_false (fuel : Nat) (cs : List Char) :
    parseVal (fuel + 1) ('f' :: 'a' :: 'l' :: 's' :: 'e' :: cs) = some (Json.jbool false, cs) := rfl

theorem parseVal_brace (fuel : Nat) (cs : List Char) :
    parseVal (fuel + 1) ('{' :: cs) =
      match skipWs cs with
      | '}' :: rest' => some (Json.jobj [], rest')
      | _ =>
        match parseMembers fuel cs with
        | some (ms, rest') => some (Json.jobj ms, rest')
        | none => none := rfl

theorem parseMembers_quote (fuel : Nat) (cs : List Char) :
    parseMembers (fuel + 1) ('"' :: cs) =
      match parseStrBody cs with
      | none => none
      | some (k, rest1) =>
        match skipWs rest1 with
        | ':' :: rest2 =>
          (match parseVal fuel rest2 with
           | none => none
           | some (v, rest3) =>
             match skipWs rest3 with
             | ',' :: rest4 =>
               (match parseMembers fuel rest4 with
                | some (ms, rest5) => some ((String.mk k, v) :: ms, rest5)
                | none => none)
             | '}' :: rest4 => some ([(String.mk k, v)], rest4)
             | _ => none)
        | _ => none := rfl



theorem parseVal_flat (v : FlatVal) (hs : flatSafe v = true) (fuel : Nat) (rest : List Char) :
    parseVal (fuel + 1) (dumpFlat v ++ rest) = some (v.toJson, rest) := by
  cases v with
  | fstr s =>
    simp only [dumpFlat, quoteStr, List.cons_append, List.append_assoc, List.nil_append]
    rw [parseVal_quote]
    simp only [flatSafe, safeString] at hs
    rw [parseStrBody_safe s.data rest hs]
    rfl
  | fbool b =>
    cases b with
    | true =>
      simp only [dumpFlat, List.cons_append, List.nil_append]
      rw [parseVal_true]
      rfl
    | false =>
      simp only [dumpFlat, List.cons_append, List.nil_append]
      rw [parseVal_false]
      rfl



theorem parseMembers_spc (n fuel : Nat) (cs : List Char) :
    parseMembers fuel (spc n ++ cs) = parseMembers fuel cs := by
  cases fuel with
  | zero => rfl
  | succ g => rw [parseMembers, parseMembers, skipWs_spc]

theorem parseMembers_fields (ind close : Nat) (fs : StoredRecord) (fuel : Nat) (rest : List Char)
    (hne : fs ≠ []) (hs : recordSafe fs = true) (hfuel : fs.length + 1 ≤ fuel) :
    parseMembers fuel (dumpFieldList ind fs ++ '\n' :: (spc close ++ '}' :: rest)) =
      some (fs.map (fun f => (f.1, f.2.toJson)), rest) := by
  induction fs generalizing fuel with
  | nil => exact absurd rfl hne
  | cons f fs ih =>
    obtain ⟨k, v⟩ := f
    simp only [recordSafe, List.all_cons, Bool.and_eq_true] at hs
    obtain ⟨⟨hk, hv⟩, hfs⟩ := hs
    match fuel, hfuel with
    | g + 2, hf2 =>
    rw [dumpFieldList]
    simp only [List.append_assoc, List.cons_append]
    rw [parseMembers_spc]
    simp only [quoteStr, List.cons_append, List.append_assoc]
    rw [parseMembers_quote]
    rw [parseStrBody_safe k.data _ hk]
    simp only [List.nil_append]
    rw [skipWs_cons_not_ws (by decide)]
    simp only []
    rw [parseVal_cons_ws (by decide)]
    rw [parseVal_flat v hv g]
    simp only []
    cases fs with
    | nil =>
      simp only [List.isEmpty_nil]
      rw [if_pos trivial]
      simp only [List.nil_append]
      rw [skipWs_cons_ws (by decide), skipWs_spc, skipWs_cons_not_ws (by decide)]
      rfl
    | cons f' fs' =>
      rw [if_neg (by simp)]
      simp only [List.cons_append]
      rw [skipWs_cons_not_ws (by decide)]
      simp only []
      rw [parseMembers_cons_ws (by decide)]
      rw [ih (g + 1) (by simp) (by simpa [recordSafe] using hfs) (by simp at hf2 ⊢; omega)]
      rfl



theorem skipWs_fieldList_quote (ind : Nat) (k : String) (v : FlatVal) (fs : StoredRecord)
    (tail : List Char) :
    ∃ X, skipWs (dumpFieldList ind ((k, v) :: fs) ++ tail) = '"' :: X := by
  rw [dumpFieldList]
  simp only [quoteStr, List.append_assoc, List.cons_append]
  rw [skipWs_spc, skipWs_cons_not_ws (by decide)]
  exact ⟨_, rfl⟩

theorem parseVal_record (ind : Nat) (r : StoredRecord) (fuel : Nat) (rest : List Char)
    (hs : recordSafe r = true) (hfuel : r.length + 2 ≤ fuel) :
    parseVal fuel (dumpRecord ind r ++ rest) =
      some (Json.jobj (r.map fun f => (f.1, f.2.toJson)), rest) := by
  match fuel, hfuel with
  | g + 1, hf =>
  cases r with
  | nil =>
    rw [dumpRecord]
    simp only [List.cons_append, List.nil_append]
    rw [parseVal_brace]
    rw [skipWs_cons_not_ws (by decide)]
    rfl
  | cons f fs =>
    obtain ⟨k, v⟩ := f
    rw [dumpRecord]
    simp only [List.cons_append, List.append_assoc, List.nil_append]
    rw [parseVal_brace]
    rw [skipWs_cons_ws (by decide)]
    obtain ⟨X, hX⟩ := skipWs_fieldList_quote (ind + 2) k v fs ('\n' :: (spc ind ++ '}' :: rest))
    rw [hX]
    rw [parseMembers_cons_ws (by decide)]
    rw [parseMembers_fields (ind + 2) ind ((k, v) :: fs) g rest (by simp) hs (by simp at hf ⊢; omega)]
    rfl

/-- Fuel sufficient to parse the printed rows of a table. -/
def rowsFuel : StoredTable → Nat
  | [] => 0
  | row :: rest => row.2.length + 3 + rowsFuel rest

theorem parseMembers_rows (rows : StoredTable) (fuel : Nat) (rest : List Char)
    (hne : rows ≠ []) (hs : wellFormedTable rows = true) (hfuel : rowsFuel rows ≤ fuel) :
    parseMembers fuel (dumpTableRows rows ++ '\n' :: '}' :: rest) =
      some (rows.map (fun row => (row.1, Json.jobj (row.2.map fun f => (f.1, f.2.toJson)))), rest) := by
  induction rows generalizing fuel with
  | nil => exact absurd rfl hne
  | cons row rows ih =>
    obtain ⟨k, r⟩ := row
    simp only [wellFormedTable, List.all_cons, Bool.and_eq_true] at hs
    obtain ⟨⟨hk, hr⟩, hrows⟩ := hs
    cases fuel with
    | zero => simp [rowsFuel] at hfuel
    | succ g =>
    rw [dumpTableRows]
    simp only [List.append_assoc, List.cons_append]
    rw [parseMembers_spc]
    simp only [quoteStr, List.cons_append, List.append_assoc]
    rw [parseMembers_quote]
    rw [parseStrBody_safe k.data _ hk]
    simp only [List.nil_append]
    rw [skipWs_cons_not_ws (by decide)]
    simp only []
    rw [parseVal_cons_ws (by decide)]
    rw [parseVal_record 2 r g _ hr (by simp [rowsFuel] at hfuel ⊢; omega)]
    simp only []
    cases rows with
    | nil =>
      simp only [List.isEmpty_nil]
      rw [if_pos trivial]
      simp only [List.nil_append]
      rw [skipWs_cons_ws (by decide), skipWs_cons_not_ws (by decide)]
      rfl
    | cons row' rows' =>
      rw [if_neg (by simp)]
      simp only [List.cons_append]
      rw [skipWs_cons_not_ws (by decide)]
      simp only []
      rw [parseMembers_cons_ws (by decide)]
      rw [ih g (by simp) (by simpa [wellFormedTable] using hrows) (by simp [rowsFuel] at hfuel ⊢; omega)]
      rfl

theorem skipWs_tableRows_quote (k : String) (r : StoredRecord) (rows : StoredTable)
    (tail : List Char) :
    ∃ X, skipWs (dumpTableRows ((k, r) :: rows) ++ tail) = '"' :: X := by
  rw [dumpTableRows]
  simp only [quoteStr, List.append_assoc, List.cons_append]
  rw [skipWs_spc, skipWs_cons_not_ws (by decide)]
  exact ⟨_, rfl⟩

theorem parseVal_table (t : StoredTable) (fuel : Nat) (rest : List Char)
    (hs : wellFormedTable t = true) (hfuel : rowsFuel t + 2 ≤ fuel) :
    parseVal fuel (dumpTable t ++ rest) = some (tableJson t, rest) := by
  match fuel, hfuel with
  | g + 1, hf =>
  cases t with
  | nil =>
    rw [dumpTable]
    simp only [List.cons_append, List.nil_append]
    rw [parseVal_brace]
    rw [skipWs_cons_not_ws (by decide)]
    rfl
  | cons row rows =>
    obtain ⟨k, r⟩ := row
    rw [dumpTable]
    simp only [List.cons_append, List.append_assoc, List.nil_append]
    rw [parseVal_brace]
    rw [skipWs_cons_ws (by decide)]
    obtain ⟨X, hX⟩ := skipWs_tableRows_quote k r rows ('\n' :: '}' :: rest)
    rw [hX]
    rw [parseMembers_cons_ws (by decide)]
    rw [parseMembers_rows ((k, r) :: rows) g rest (by simp) hs (by simp [rowsFuel] at hf ⊢; omega)]
    rfl

theorem spc_length (n : Nat) : (spc n).length = n := by simp [spc]

theorem quoteStr_length (s : String) : 2 ≤ (quoteStr s).length := by
  simp [quoteStr]

theorem dumpFieldList_length (ind : Nat) (fs : StoredRecord) :
    fs.length ≤ (dumpFieldList ind fs).length := by
  induction fs with
  | nil => simp [dumpFieldList]
  | cons f fs ih =>
    obtain ⟨k, v⟩ := f
    rw [dumpFieldList]
    cases fs with
    | nil =>
      simp only [List.isEmpty_nil]
      rw [if_pos trivial]
      have := quoteStr_length k
      simp only [List.length_append, List.length_cons, List.length_nil]
      omega
    | cons f' fs' =>
      rw [if_neg (by simp)]
      have := quoteStr_length k
      simp only [List.length_append, List.length_cons, List.length_nil] at ih ⊢
      omega

theorem dumpRecord_length (ind : Nat) (r : StoredRecord) :
    r.length + 2 ≤ (dumpRecord ind r).length := by
  cases r with
  | nil => simp [dumpRecord]
  | cons f fs =>
    rw [dumpRecord]
    have := dumpFieldList_length (ind + 2) (f :: fs)
    simp only [List.length_append, List.length_cons] at this ⊢
    omega

theorem dumpTableRows_length (rows : StoredTable) :
    rowsFuel rows ≤ (dumpTableRows rows).length := by
  induction rows with
  | nil => simp [rowsFuel, dumpTableRows]
  | cons row rows ih =>
    obtain ⟨k, r⟩ := row
    rw [dumpTableRows, rowsFuel]
    have h1 := dumpRecord_length 2 r
    have h2 := quoteStr_length k
    cases rows with
    | nil =>
      simp only [List.isEmpty_nil]
      rw [if_pos trivial]
      simp only [rowsFuel, List.length_append, spc_length, List.length_nil]
      omega
    | cons row' rows' =>
      rw [if_neg (by simp)]
      simp only [List.length_append, List.length_cons, spc_length] at ih ⊢
      omega

/-- Parsing the file save_jobs wrote recovers exactly the JSON object of
the saved table: the job store round-trips through save then load. -/
theorem dump_parse_roundtrip (t : StoredTable) (hs : wellFormedTable t = true) :
    parseJson (dumpTable t) = some (tableJson t) := by
  rw [parseJson]
  have hlen : rowsFuel t + 2 ≤ (dumpTable t).length + 1 := by
    have h := dumpTableRows_length t
    cases t with
    | nil => simp [rowsFuel, dumpTable]
    | cons row rows =>
      rw [dumpTable]
      simp only [List.length_cons, List.length_append] at h ⊢
      omega
  have h1 := parseVal_table t ((dumpTable t).length + 1) [] hs hlen
  rw [List.append_nil] at h1
  rw [h1]
  rfl



/-!
Operational model of BatchManager.  A job record is the in-memory dict
value of one entry of the jobs table; `processed` models
job.get('processed') truthiness (the key is absent until the normalizer
sets it, and absent reads as false).
-/

/-- One in-memory job record (the dict stored under a batch identifier). -/
structure JobRecord where
  provider : String
  model_key : String
  status : String
  timestamp : String
  output_dir : String
  input_file : Option String := none
  base_url : Option String := none
  env_key : Option String := none
  result_file : Option String := none
  processed : Bool := false
deriving Repr, DecidableEq

/-- The in-memory job table (a dict: insertion-ordered keyed list). -/
abbrev JobTable := List (String × JobRecord)

/-- What one provider interaction during a check returns, decided by the
environment: either some API call raises, or the provider reports a
native status string together with whether a downloadable result is
attached (output_file_id for OpenAI-style, results_url for Qwen and
Anthropic). -/
inductive ProviderResult where
  | throws : ProviderResult
  | responds : String → Bool → ProviderResult
deriving Repr, DecidableEq

/-- The path every check function downloads results to:
os.path.join(job['output_dir'], f"batch_results_{batch_id}.jsonl"). -/
def resultPath (job : JobRecord) (batch_id : String) : String :=
  job.output_dir ++ "/batch_results_" ++ batch_id ++ ".jsonl"

/-- The in-place mutation both performed by every check function on
success: job['status'] = "completed"; job['result_file'] = output_path. -/
def applyCompletion (job : JobRecord) (path : String) : JobRecord :=
  { job with status := "completed", result_file := some path }

/-- _check_openai: retrieve the batch (any API error propagates); if the
native status is "completed" and an output file id is present, download
and mark the record completed, else leave it untouched. -/
def check_openai (resp : ProviderResult) (batch_id : String) (job : JobRecord) :
    Except Unit JobRecord :=
  match resp with
  | .throws => .error ()
  | .responds current_status hasOutputFile =>
    if current_status = "completed" ∧ hasOutputFile = true then
      .ok (applyCompletion job (resultPath job batch_id))
    else .ok job

/-- _check_openai_compatible: identical logic against the job's stored
base_url/env_key client. -/
def check_openai_compatible (resp : ProviderResult) (batch_id : String) (job : JobRecord) :
    Except Unit JobRecord :=
  match resp with
  | .throws => .error ()
  | .responds current_status hasOutputFile =>
    if current_status = "completed" ∧ hasOutputFile = true then
      .ok (applyCompletion job (resultPath job batch_id))
    else .ok job

/-- _check_google: get the batch job state; only "JOB_STATE_SUCCEEDED"
downloads and completes (the download itself may raise, which the oracle
reports as throws). -/
def check_google (resp : ProviderResult) (batch_id : String) (job : JobRecord) :
    Except Unit JobRecord :=
  match resp with
  | .throws => .error ()
  | .responds state _ =>
    if state = "JOB_STATE_SUCCEEDED" then
      .ok (applyCompletion job (resultPath job batch_id))
    else .ok job

/-- _check_anthropic: retrieve the batch; only processing_status "ended"
with a results_url downloads and completes. -/
def check_anthropic (resp : ProviderResult) (batch_id : String) (job : JobRecord) :
    Except Unit JobRecord :=
  match resp with
  | .throws => .error ()
  | .responds processing_status hasResultsUrl =>
    if processing_status = "ended" ∧ hasResultsUrl = true then
      .ok (applyCompletion job (resultPath job batch_id))
    else .ok job

/-- _check_qwen: the whole interaction is wrapped in try/except, so an
exception is caught and logged and the record is left unchanged; on
task_status "SUCCEEDED" with a results_url the record is completed. -/
def check_qwen (resp : ProviderResult) (batch_id : String) (job : JobRecord) : JobRecord :=
  match resp with
  | .throws => job
  | .responds task_status hasResultsUrl =>
    if task_status = "SUCCEEDED" ∧ hasResultsUrl = true then
      applyCompletion job (resultPath job batch_id)
    else job

/-- The provider dispatch inside check_and_retrieve's loop body (string
comparison chain, in source order); a provider outside the chain leaves
the record untouched. -/
def checkJob (oracle : String → ProviderResult) (batch_id : String) (job : JobRecord) :
    Except Unit JobRecord :=
  if job.provider = "openai" then check_openai (oracle batch_id) batch_id job
  else if job.provider = "anthropic" then check_anthropic (oracle batch_id) batch_id job
  else if job.provider = "google" then check_google (oracle batch_id) batch_id job
  else if job.provider = "openai_compatible" then
    check_openai_compatible (oracle batch_id) batch_id job
  else if job.provider = "qwen" then .ok (check_qwen (oracle batch_id) batch_id job)
  else .ok job

/-- check_and_retrieve: iterate the loaded table; a record whose status
is already "completed" is skipped; otherwise the provider check runs,
and an uncaught exception aborts the whole pass (the final save_jobs is
never reached).  Returns the table that save_jobs would then persist. -/
def check_and_retrieve (oracle : String → ProviderResult) : JobTable → Except Unit JobTable
  | [] => .ok []
  | (batch_id, job) :: rest =>
    if job.status = "completed" then
      match check_and_retrieve oracle rest with
      | .ok rest' => .ok ((batch_id, job) :: rest')
      | .error e => .error e
    else
      match checkJob oracle batch_id job with
      | .error e => .error e
      | .ok job' =>
        match check_and_retrieve oracle rest with
        | .ok rest' => .ok ((batch_id, job') :: rest')
        | .error e => .error e

/-- Python dict assignment jobs[batch_id] = rec: replace in place if the
key exists, else append. -/
def setKey (t : JobTable) (batch_id : String) (rec : JobRecord) : JobTable :=
  match t with
  | [] => [(batch_id, rec)]
  | (k, r) :: rest =>
    if k = batch_id then (k, rec) :: rest
    else (k, r) :: setKey rest batch_id rec

/-- The record _submit_openai stores after a successful submission. -/
def submit_openai_record (model_key timestamp output_dir input_file : String) : JobRecord :=
  { provider := "openai", model_key := model_key, status := "pending",
    timestamp := timestamp, output_dir := output_dir, input_file := some input_file }

/-- The record _submit_openai_compatible stores. -/
def submit_openai_compatible_record
    (model_key base_url env_key timestamp output_dir input_file : String) : JobRecord :=
  { provider := "openai_compatible", model_key := model_key, base_url := some base_url,
    env_key := some env_key, status := "pending", timestamp := timestamp,
    output_dir := output_dir, input_file := some input_file }

/-- The record _submit_google stores. -/
def submit_google_record (model_key timestamp output_dir input_file : String) : JobRecord :=
  { provider := "google", model_key := model_key, status := "pending",
    timestamp := timestamp, output_dir := output_dir, input_file := some input_file }

/-- The record _submit_anthropic stores (no input_file key). -/
def submit_anthropic_record (model_key timestamp output_dir : String) : JobRecord :=
  { provider := "anthropic", model_key := model_key, status := "pending",
    timestamp := timestamp, output_dir := output_dir }

/-- The record _submit_qwen stores. -/
def submit_qwen_record (model_key timestamp output_dir input_file : String) : JobRecord :=
  { provider := "qwen", model_key := model_key, status := "pending",
    timestamp := timestamp, output_dir := output_dir, input_file := some input_file }

/-- The job-table update every _submit_* performs: load, assign the new
record under the provider-issued batch id, save. -/
def recordSubmission (t : JobTable) (batch_id : String) (rec : JobRecord) : JobTable :=
  setKey t batch_id rec



/-!
Result normalization (process_results_to_final_json).  The evaluator
instance enters only through its query list and its clean_sparql
function, which the method receives as a parameter, so the model takes
both as arguments.
-/

/-- One original query of the evaluator (payload ids are the query ids,
per generate_prompt_payloads). -/
structure Query where
  id : String
  query : String
  ground_truth_sparql : Option String := none
deriving Repr, DecidableEq

/-- query_map = \x7bq['id']: q for q in queries\x7d followed by
query_map.get(cid): for duplicate ids the comprehension keeps the last
occurrence. -/
def queryMapGet (queries : List Query) (cid : String) : Option Query :=
  queries.reverse.find? fun q => q.id = cid

/-- Python dict lookup obj.get(k) on a parsed JSON object (json.load
keeps the last duplicate key); on a non-object it returns nothing (the
code's obj[k] would raise, inside a try). -/
def getMem : Json → String → Option Json
  | Json.jobj ms, k => (ms.reverse.find? fun m => m.1 = k).map fun m => m.2
  | _, _ => none

/-- Python sequence indexing v[0] as used inside the extraction try
blocks: first element of a JSON array; anything else raises (a string
would yield a character that the following subscript then rejects),
which the enclosing try turns into the sentinel. -/
def index0 : Json → Option Json
  | Json.jarr (x :: _) => some x
  | _ => none

/-- obj['response']['body']['choices'][0]['message']['content'] for
OpenAI-format results. -/
def extract_openai (obj : Json) : Option Json :=
  ((((getMem obj "response").bind (getMem · "body")).bind
    (getMem · "choices")).bind index0).bind
    (fun c0 => (getMem c0 "message").bind (getMem · "content"))

/-- obj['result']['message']['content'][0]['text'] for Anthropic-format
results. -/
def extract_anthropic (obj : Json) : Option Json :=
  ((((getMem obj "result").bind (getMem · "message")).bind
    (getMem · "content")).bind index0).bind (getMem · "text")

/-- obj['response']['candidates'][0]['content']['parts'][0]['text'] for
Gemini-format results. -/
def extract_google (obj : Json) : Option Json :=
  (((((getMem obj "response").bind (getMem · "candidates")).bind index0).bind
    (getMem · "content")).bind (getMem · "parts")).bind
    (fun p => (index0 p).bind (getMem · "text"))

/-- The explicit extraction-error sentinel the except branches assign. -/
def extractionSentinel : String := "Error extracting content"

/-- The value bound to response_text after the provider branches:
initialized to "", replaced per provider inside try/except with the
extracted value or the sentinel.  A provider matching no branch (the
'qwen' handler exists only as dead text inside the method's docstring)
leaves the initial "". -/
def response_text_of (provider : String) (obj : Json) : Json :=
  if provider = "openai" ∨ provider = "openai_compatible" then
    match extract_openai obj with
    | some v => v
    | none => Json.jstr extractionSentinel
  else if provider = "anthropic" then
    match extract_anthropic obj with
    | some v => v
    | none => Json.jstr extractionSentinel
  else if provider = "google" then
    match extract_google obj with
    | some v => v
    | none => Json.jstr extractionSentinel
  else Json.jstr ""

/-- The canonical result record appended for each matched line (the
literal dict of the source, including its constant fields). -/
structure ResultRecord where
  id : String
  query : String
  model : String
  generated_sparql : String
  ground_truth_sparql : Option String
  generated_count : Int
  ground_truth_count : Int
  is_match : Bool
  execution_error : String
  raw_llm_response : String
deriving Repr, DecidableEq

/-- custom_id = obj.get('custom_id'), kept only when it is a string:
the query map is keyed by the (string) query ids, so a missing or
non-string custom_id can never match a key and the line is dropped. -/
def customIdOf (obj : Json) : Option String :=
  match getMem obj "custom_id" with
  | some (Json.jstr cid) => some cid
  | _ => none

/-- One iteration of the result-line loop: look up custom_id in the
query map; on a match, clean_sparql(response_text) runs — it raises a
TypeError (uncaught) when a successful extraction produced a non-string
value — and one canonical record is appended. -/
def processLine (clean : String → String) (provider model_key : String)
    (queries : List Query) (obj : Json) : Except Unit (Option ResultRecord) :=
  match customIdOf obj with
  | none => .ok none
  | some cid =>
    match queryMapGet queries cid with
    | none => .ok none
    | some q =>
      match response_text_of provider obj with
      | Json.jstr s =>
        .ok (some { id := cid, query := q.query, model := model_key,
                    generated_sparql := clean s,
                    ground_truth_sparql := q.ground_truth_sparql,
                    generated_count := -1, ground_truth_count := -1,
                    is_match := false, execution_error := "Execution Skipped",
                    raw_llm_response := s })
      | _ => .error ()

/-- The whole result-line loop, in file order. -/
def processLines (clean : String → String) (provider model_key : String)
    (queries : List Query) : List Json → Except Unit (List ResultRecord)
  | [] => .ok []
  | obj :: rest =>
    match processLine clean provider model_key queries obj with
    | .error e => .error e
    | .ok none => processLines clean provider model_key queries rest
    | .ok (some rec) =>
      match processLines clean provider model_key queries rest with
      | .ok recs => .ok (rec :: recs)
      | .error e => .error e

/-- Downloaded raw result files: path to parsed JSONL lines. -/
abbrev ResultFiles := List (String × List Json)

/-- Canonical output files: path to the record list json.dump writes. -/
abbrev FinalFiles := List (String × List ResultRecord)

/-- os.path.exists + jsonlines.open on the raw result store. -/
def lookupFile (fs : ResultFiles) (p : String) : Option (List Json) :=
  (fs.reverse.find? fun f => f.1 = p).map fun f => f.2

/-- open(final_path, 'w') + json.dump: the file is fully overwritten. -/
def writeFinal (fs : FinalFiles) (p : String) (recs : List ResultRecord) : FinalFiles :=
  match fs with
  | [] => [(p, recs)]
  | (k, r) :: rest =>
    if k = p then (k, recs) :: rest
    else (k, r) :: writeFinal rest p recs

/-- The loop body of process_results_to_final_json for one job: a job
that is completed and not yet processed has its raw result file read
(skipped, record unchanged, when the path is unset or the file is gone),
every line normalized, and is then marked processed; the returned option
is the aggregated canonical file write (path, records) performed for it.
Any other job is left untouched with no write. -/
def processOneJob (clean : String → String) (queries : List Query)
    (resultFiles : ResultFiles) (job : JobRecord) :
    Except Unit (JobRecord × Option (String × List ResultRecord)) :=
  if job.status = "completed" ∧ job.processed = false then
    match job.result_file with
    | none => .ok (job, none)
    | some p =>
      match lookupFile resultFiles p with
      | none => .ok (job, none)
      | some lines =>
        match processLines clean job.provider job.model_key queries lines with
        | .error e => .error e
        | .ok recs =>
          .ok ({ job with processed := true },
               some (job.output_dir ++ "/results_summary_batch.json", recs))
  else .ok (job, none)

/-- Perform the loop body's optional canonical-file write. -/
def applyWrite (fin : FinalFiles) : Option (String × List ResultRecord) → FinalFiles
  | none => fin
  | some (p, recs) => writeFinal fin p recs

/-- process_results_to_final_json: run the loop body over every loaded
job in order, performing each job's canonical-file write (open in 'w'
mode: full overwrite) as it happens; the updated table is saved at the
end.  An uncaught exception (.error) aborts the method before that
save. -/
def process_results_to_final_json (clean : String → String) (queries : List Query)
    (resultFiles : ResultFiles) :
    JobTable → FinalFiles → Except Unit (JobTable × FinalFiles)
  | [], fin => .ok ([], fin)
  | (batch_id, job) :: rest, fin =>
    match processOneJob clean queries resultFiles job with
    | .error e => .error e
    | .ok (job', w) =>
      match process_results_to_final_json clean queries resultFiles rest (applyWrite fin w) with
      | .ok (rest', fin') => .ok ((batch_id, job') :: rest', fin')
      | .error e => .error e



/-!
Facts about the polling pass.
-/

theorem check_openai_ok_cases (resp : ProviderResult) (bid : String) (job j' : JobRecord)
    (h : check_openai resp bid job = .ok j') :
    j' = job ∨ j' = applyCompletion job (resultPath job bid) := by
  cases resp with
  | throws => simp [check_openai] at h
  | responds st b =>
    simp only [check_openai] at h
    split_ifs at h <;> simp_all

theorem check_openai_compatible_ok_cases (resp : ProviderResult) (bid : String)
    (job j' : JobRecord) (h : check_openai_compatible resp bid job = .ok j') :
    j' = job ∨ j' = applyCompletion job (resultPath job bid) := by
  cases resp with
  | throws => simp [check_openai_compatible] at h
  | responds st b =>
    simp only [check_openai_compatible] at h
    split_ifs at h <;> simp_all

theorem check_google_ok_cases (resp : ProviderResult) (bid : String) (job j' : JobRecord)
    (h : check_google resp bid job = .ok j') :
    j' = job ∨ j' = applyCompletion job (resultPath job bid) := by
  cases resp with
  | throws => simp [check_google] at h
  | responds st b =>
    simp only [check_google] at h
    split_ifs at h <;> simp_all

theorem check_anthropic_ok_cases (resp : ProviderResult) (bid : String) (job j' : JobRecord)
    (h : check_anthropic resp bid job = .ok j') :
    j' = job ∨ j' = applyCompletion job (resultPath job bid) := by
  cases resp with
  | throws => simp [check_anthropic] at h
  | responds st b =>
    simp only [check_anthropic] at h
    split_ifs at h <;> simp_all

theorem check_qwen_cases (resp : ProviderResult) (bid : String) (job : JobRecord) :
    check_qwen resp bid job = job ∨
      check_qwen resp bid job = applyCompletion job (resultPath job bid) := by
  cases resp with
  | throws => simp [check_qwen]
  | responds st b =>
    simp only [check_qwen]
    split_ifs <;> simp_all

/-- Every provider check either leaves the record untouched or performs
exactly the completion mutation. -/
theorem checkJob_ok_cases (oracle : String → ProviderResult) (batch_id : String)
    (job j' : JobRecord) (h : checkJob oracle batch_id job = .ok j') :
    j' = job ∨ j' = applyCompletion job (resultPath job batch_id) := by
  unfold checkJob at h
  split_ifs at h
  · exact check_openai_ok_cases _ _ _ _ h
  · exact check_anthropic_ok_cases _ _ _ _ h
  · exact check_google_ok_cases _ _ _ _ h
  · exact check_openai_compatible_ok_cases _ _ _ _ h
  · cases h
    exact check_qwen_cases (oracle batch_id) batch_id job
  · cases h
    exact Or.inl rfl

/-- checkJob raises only when the provider call raised and the provider
is one of the four whose check body has no try/except. -/
theorem checkJob_error_iff (oracle : String → ProviderResult) (batch_id : String)
    (job : JobRecord) :
    checkJob oracle batch_id job = .error () ↔
      (oracle batch_id = ProviderResult.throws ∧
       job.provider ∈ (["openai", "anthropic", "google", "openai_compatible"] : List String)) := by
  unfold checkJob
  cases hor : oracle batch_id with
  | throws =>
    split_ifs <;>
      simp_all [check_openai, check_anthropic, check_google, check_openai_compatible]
  | responds st b =>
    split_ifs <;>
      simp_all [check_openai, check_anthropic, check_google, check_openai_compatible] <;>
      split_ifs <;> simp_all



/-- The pure per-job effect of one pass when no exception escapes. -/
def stepJob (oracle : String → ProviderResult) (p : String × JobRecord) : JobRecord :=
  if p.2.status = "completed" then p.2
  else
    match checkJob oracle p.1 p.2 with
    | .ok j' => j'
    | .error _ => p.2

/-- A pending OpenAI job as submitted. -/
def exPendingOpenai : JobRecord :=
  { provider := "openai", model_key := "gpt", status := "pending",
    timestamp := "2025-01-01T00:00:00", output_dir := "outputs",
    input_file := some "outputs/batch_input_gpt.jsonl" }

/-- An oracle under which the provider call for batch b1 raises and the
one for batch b2 reports success. -/
def throwingOracle : String → ProviderResult := fun bid =>
  if bid = "b1" then ProviderResult.throws else ProviderResult.responds "completed" true

/-- Claim C1, counterexample: with two pending OpenAI jobs, an exception while
polling the first escapes check_and_retrieve (there is no try/except at
the job scope), so the pass aborts instead of completing, even though
checking the second job alone would have succeeded and completed it. -/
theorem checkPassAbortsOnOpenaiError :
    check_and_retrieve throwingOracle
        [("b1", exPendingOpenai), ("b2", exPendingOpenai)] = Except.error () ∧
    check_openai (throwingOracle "b2") "b2" exPendingOpenai =
      Except.ok (applyCompletion exPendingOpenai (resultPath exPendingOpenai "b2")) :=
  ⟨rfl, rfl⟩

/-- Claim C1, amended: per-job isolation holds only for jobs whose provider
check catches its own exceptions (qwen) or dispatches to no branch; if
every job whose call raises is such a job, the pass completes, visits
every non-completed job, and a raising qwen check leaves its record
unchanged. -/
theorem checkPassIsolatesOnlyQwen (oracle : String → ProviderResult) (t : JobTable)
    (h : ∀ p ∈ t, p.2.status ≠ "completed" → oracle p.1 = ProviderResult.throws →
        p.2.provider ∉ (["openai", "anthropic", "google", "openai_compatible"] : List String)) :
    check_and_retrieve oracle t = Except.ok (t.map fun p => (p.1, stepJob oracle p)) ∧
    (∀ p ∈ t, oracle p.1 = ProviderResult.throws → stepJob oracle p = p.2) := by
  constructor
  · induction t with
    | nil => rfl
    | cons p rest ih =>
      obtain ⟨bid, job⟩ := p
      have hrest := ih fun q hq => h q (List.mem_cons_of_mem _ hq)
      rw [check_and_retrieve]
      by_cases hc : job.status = "completed"
      · rw [if_pos hc, hrest]
        simp only [List.map_cons, stepJob, hc, if_pos]
      · rw [if_neg hc]
        have hok : ∃ j', checkJob oracle bid job = .ok j' := by
          cases he : checkJob oracle bid job with
          | ok j' => exact ⟨j', rfl⟩
          | error e =>
            cases e
            have := (checkJob_error_iff oracle bid job).mp he
            exact absurd (h (bid, job) (List.mem_cons_self _ _) hc this.1) (fun hn => hn this.2)
        obtain ⟨j', hj'⟩ := hok
        rw [hj', hrest]
        simp only [List.map_cons, stepJob, if_neg hc, hj']
  · intro p hp hthrow
    obtain ⟨bid, job⟩ := p
    unfold stepJob
    by_cases hc : job.status = "completed"
    · rw [if_pos hc]
    · rw [if_neg hc]
      cases he : checkJob oracle bid job with
      | error e => rfl
      | ok j' =>
        have hnot := h (bid, job) hp hc hthrow
        unfold checkJob at he
        simp only at hnot
        split_ifs at he with h1 h2 h3 h4 h5
        · exact absurd (by simp [h1]) hnot
        · exact absurd (by simp [h2]) hnot
        · exact absurd (by simp [h3]) hnot
        · exact absurd (by simp [h4]) hnot
        · cases he
          simp [check_qwen, hthrow]
        · cases he
          rfl



/-- A pending Qwen job as submitted. -/
def exPendingQwen : JobRecord :=
  { provider := "qwen", model_key := "qwen-max", status := "pending",
    timestamp := "2025-01-01T00:00:00", output_dir := "outputs",
    input_file := some "outputs/batch_input_qwen.jsonl" }

/-- An oracle under which every provider call raises. -/
def alwaysThrowOracle : String → ProviderResult := fun _ => ProviderResult.throws

theorem checkPassIsolatesOnlyQwen_witness :
    check_and_retrieve alwaysThrowOracle [("q1", exPendingQwen)] =
      Except.ok [("q1", exPendingQwen)] := by
  have hmain := (checkPassIsolatesOnlyQwen alwaysThrowOracle [("q1", exPendingQwen)]
    (by intro p hp h1 h2; simp only [List.mem_singleton] at hp; subst hp; decide)).1
  simpa using hmain

/-- Claim C2: the polling pass never regresses a status: a completed record is
returned unchanged (it is skipped), and every other record keeps its
status or moves to "completed" — the only transition any check function
performs. -/
theorem statusMonotonic (oracle : String → ProviderResult) (t t' : JobTable)
    (h : check_and_retrieve oracle t = Except.ok t') :
    List.Forall₂ (fun p q : String × JobRecord =>
      p.1 = q.1 ∧ (p.2.status = "completed" → q.2 = p.2) ∧
      (q.2.status = p.2.status ∨ q.2.status = "completed")) t t' := by
  induction t generalizing t' with
  | nil =>
    rw [check_and_retrieve] at h
    cases h
    exact List.Forall₂.nil
  | cons p rest ih =>
    obtain ⟨bid, job⟩ := p
    rw [check_and_retrieve] at h
    by_cases hc : job.status = "completed"
    · rw [if_pos hc] at h
      cases hr : check_and_retrieve oracle rest with
      | error e => rw [hr] at h; cases h
      | ok rest' =>
        rw [hr] at h
        cases h
        exact List.Forall₂.cons ⟨rfl, fun _ => rfl, Or.inl rfl⟩ (ih rest' hr)
    · rw [if_neg hc] at h
      cases hcj : checkJob oracle bid job with
      | error e => rw [hcj] at h; cases h
      | ok j' =>
        rw [hcj] at h
        cases hr : check_and_retrieve oracle rest with
        | error e => rw [hr] at h; cases h
        | ok rest' =>
          rw [hr] at h
          cases h
          refine List.Forall₂.cons ⟨rfl, fun hcomp => absurd hcomp hc, ?_⟩ (ih rest' hr)
          rcases checkJob_ok_cases oracle bid job j' hcj with rfl | rfl
          · exact Or.inl rfl
          · exact Or.inr rfl

/-- An oracle under which every provider call reports success. -/
def successOracle : String → ProviderResult := fun _ => ProviderResult.responds "completed" true

theorem statusMonotonic_witness :
    List.Forall₂ (fun p q : String × JobRecord =>
      p.1 = q.1 ∧ (p.2.status = "completed" → q.2 = p.2) ∧
      (q.2.status = p.2.status ∨ q.2.status = "completed"))
      [("b1", exPendingOpenai)]
      [("b1", applyCompletion exPendingOpenai (resultPath exPendingOpenai "b1"))] :=
  statusMonotonic successOracle _ _ (by rfl)



/-- Claim C8: each provider check treats exactly one native status value as
success; any other native value leaves the pending record untouched
(still "pending", no result download), so unknown statuses are never
treated as completed. -/
theorem checkStatusMappingTotal (st : String) (hasOut : Bool) (bid : String)
    (job : JobRecord) (hp : job.status = "pending") :
    (∀ j', check_openai (ProviderResult.responds st hasOut) bid job = Except.ok j' →
       ((j'.status = "completed" ↔ st = "completed" ∧ hasOut = true) ∧
        (st ≠ "completed" → j' = job))) ∧
    (∀ j', check_openai_compatible (ProviderResult.responds st hasOut) bid job = Except.ok j' →
       ((j'.status = "completed" ↔ st = "completed" ∧ hasOut = true) ∧
        (st ≠ "completed" → j' = job))) ∧
    (∀ j', check_google (ProviderResult.responds st hasOut) bid job = Except.ok j' →
       ((j'.status = "completed" ↔ st = "JOB_STATE_SUCCEEDED") ∧
        (st ≠ "JOB_STATE_SUCCEEDED" → j' = job))) ∧
    (∀ j', check_anthropic (ProviderResult.responds st hasOut) bid job = Except.ok j' →
       ((j'.status = "completed" ↔ st = "ended" ∧ hasOut = true) ∧
        (st ≠ "ended" → j' = job))) ∧
    (((check_qwen (ProviderResult.responds st hasOut) bid job).status = "completed" ↔
        st = "SUCCEEDED" ∧ hasOut = true) ∧
     (st ≠ "SUCCEEDED" → check_qwen (ProviderResult.responds st hasOut) bid job = job)) := by
  refine ⟨?_, ?_, ?_, ?_, ?_⟩
  · intro j' h
    simp only [check_openai] at h
    split_ifs at h with hcond <;> cases h <;>
      simp_all [applyCompletion]
  · intro j' h
    simp only [check_openai_compatible] at h
    split_ifs at h with hcond <;> cases h <;>
      simp_all [applyCompletion]
  · intro j' h
    simp only [check_google] at h
    split_ifs at h with hcond <;> cases h <;>
      simp_all [applyCompletion]
  · intro j' h
    simp only [check_anthropic] at h
    split_ifs at h with hcond <;> cases h <;>
      simp_all [applyCompletion]
  · simp only [check_qwen]
    split_ifs with hcond <;> simp_all [applyCompletion]

theorem checkStatusMappingTotal_witness :
    check_qwen (ProviderResult.responds "RUNNING" true) "b1" exPendingQwen = exPendingQwen :=
  ((checkStatusMappingTotal "RUNNING" true "b1" exPendingQwen rfl).2.2.2.2).2 (by decide)



/-- The loop body either leaves a record untouched (with no write) or
marks a completed unprocessed record processed (together with its
canonical write). -/
theorem processOneJob_ok_cases (clean : String → String) (queries : List Query)
    (resultFiles : ResultFiles) (job job' : JobRecord)
    (w : Option (String × List ResultRecord))
    (h : processOneJob clean queries resultFiles job = .ok (job', w)) :
    (job' = job ∧ w = none) ∨
    (job.status = "completed" ∧ job.processed = false ∧
     job' = { job with processed := true }) := by
  unfold processOneJob at h
  split_ifs at h with hc
  · split at h
    · cases h
      exact Or.inl ⟨rfl, rfl⟩
    · split at h
      · cases h
        exact Or.inl ⟨rfl, rfl⟩
      · split at h
        · cases h
        · cases h
          exact Or.inr ⟨hc.1, hc.2, rfl⟩
  · cases h
    exact Or.inl ⟨rfl, rfl⟩

/-- The Job Record invariant of the spec: results_processed implies
Completed, and result_file is set exactly when Completed. -/
def recordInv (j : JobRecord) : Prop :=
  (j.processed = true → j.status = "completed") ∧
  (j.result_file.isSome ↔ j.status = "completed")

/-- Claim C3: every operation preserves the record invariant: each submit
creates a pending record with no result_file and processed unset; each
provider check either leaves a record alone or sets status and
result_file together; the polling pass and the normalizer preserve the
invariant across the whole table. -/
theorem jobRecordInvariantPreserved :
    (∀ mk ts od inf, recordInv (submit_openai_record mk ts od inf)) ∧
    (∀ mk bu ek ts od inf, recordInv (submit_openai_compatible_record mk bu ek ts od inf)) ∧
    (∀ mk ts od inf, recordInv (submit_google_record mk ts od inf)) ∧
    (∀ mk ts od, recordInv (submit_anthropic_record mk ts od)) ∧
    (∀ mk ts od inf, recordInv (submit_qwen_record mk ts od inf)) ∧
    (∀ oracle bid (job j' : JobRecord), recordInv job →
       checkJob oracle bid job = Except.ok j' → recordInv j') ∧
    (∀ oracle (t t' : JobTable), (∀ p ∈ t, recordInv p.2) →
       check_and_retrieve oracle t = Except.ok t' → ∀ p ∈ t', recordInv p.2) ∧
    (∀ clean queries resultFiles (t : JobTable) fin t' fin',
       (∀ p ∈ t, recordInv p.2) →
       process_results_to_final_json clean queries resultFiles t fin = Except.ok (t', fin') →
       ∀ p ∈ t', recordInv p.2) := by
  have hcheck : ∀ oracle bid (job j' : JobRecord), recordInv job →
      checkJob oracle bid job = Except.ok j' → recordInv j' := by
    intro oracle bid job j' hinv h
    rcases checkJob_ok_cases oracle bid job j' h with rfl | rfl
    · exact hinv
    · exact ⟨fun _ => rfl, by simp [applyCompletion]⟩
  refine ⟨?_, ?_, ?_, ?_, ?_, hcheck, ?_, ?_⟩
  · intro mk ts od inf
    exact ⟨fun h => by simp [submit_openai_record] at h, by simp [submit_openai_record]⟩
  · intro mk bu ek ts od inf
    exact ⟨fun h => by simp [submit_openai_compatible_record] at h,
           by simp [submit_openai_compatible_record]⟩
  · intro mk ts od inf
    exact ⟨fun h => by simp [submit_google_record] at h, by simp [submit_google_record]⟩
  · intro mk ts od
    exact ⟨fun h => by simp [submit_anthropic_record] at h, by simp [submit_anthropic_record]⟩
  · intro mk ts od inf
    exact ⟨fun h => by simp [submit_qwen_record] at h, by simp [submit_qwen_record]⟩
  · intro oracle t t' hall h
    induction t generalizing t' with
    | nil =>
      rw [check_and_retrieve] at h
      cases h
      intro p hp
      cases hp
    | cons p rest ih =>
      obtain ⟨bid, job⟩ := p
      rw [check_and_retrieve] at h
      by_cases hc : job.status = "completed"
      · rw [if_pos hc] at h
        cases hr : check_and_retrieve oracle rest with
        | error e => rw [hr] at h; cases h
        | ok rest' =>
          rw [hr] at h
          cases h
          intro q hq
          rcases List.mem_cons.mp hq with rfl | hq'
          · exact hall _ (List.mem_cons_self _ _)
          · exact ih rest' (fun r hr' => hall r (List.mem_cons_of_mem _ hr')) hr q hq'
      · rw [if_neg hc] at h
        cases hcj : checkJob oracle bid job with
        | error e => rw [hcj] at h; cases h
        | ok j' =>
          rw [hcj] at h
          cases hr : check_and_retrieve oracle rest with
          | error e => rw [hr] at h; cases h
          | ok rest' =>
            rw [hr] at h
            cases h
            intro q hq
            rcases List.mem_cons.mp hq with rfl | hq'
            · exact hcheck oracle bid job j' (hall _ (List.mem_cons_self _ _)) hcj
            · exact ih rest' (fun r hr' => hall r (List.mem_cons_of_mem _ hr')) hr q hq'
  · intro clean queries resultFiles t fin t' fin' hall h
    induction t generalizing fin t' fin' with
    | nil =>
      rw [process_results_to_final_json] at h
      cases h
      intro p hp
      cases hp
    | cons p rest ih =>
      obtain ⟨bid, job⟩ := p
      rw [process_results_to_final_json] at h
      cases ho : processOneJob clean queries resultFiles job with
      | error e => rw [ho] at h; cases h
      | ok pr =>
        obtain ⟨job', w⟩ := pr
        rw [ho] at h
        simp only [] at h
        cases hr : process_results_to_final_json clean queries resultFiles rest
            (applyWrite fin w) with
        | error e => rw [hr] at h; cases h
        | ok pr2 =>
          obtain ⟨rest', fin2⟩ := pr2
          rw [hr] at h
          cases h
          intro q hq
          rcases List.mem_cons.mp hq with rfl | hq'
          · rcases processOneJob_ok_cases clean queries resultFiles job job' w ho with
              ⟨rfl, -⟩ | ⟨hcomp, -, rfl⟩
            · exact hall _ (List.mem_cons_self _ _)
            · exact ⟨fun _ => hcomp,
                by simpa [hcomp] using (hall _ (List.mem_cons_self _ _)).2⟩
          · exact ih _ _ _ (fun r hr' => hall r (List.mem_cons_of_mem _ hr')) hr q hq'

theorem jobRecordInvariantPreserved_witness :
    recordInv (submit_openai_record "gpt" "2025-01-01" "outputs" "outputs/in.jsonl") :=
  jobRecordInvariantPreserved.1 "gpt" "2025-01-01" "outputs" "outputs/in.jsonl"



/-- The custom_id of a result line when and only when it joins: present,
a string, and naming an original query. -/
def matchedId (queries : List Query) (line : Json) : Option String :=
  match customIdOf line with
  | some cid => if (queryMapGet queries cid).isSome then some cid else none
  | none => none

/-- Claim C4: the normalizer emits exactly one canonical record, carrying that
custom_id, for each result line whose custom_id matches an original
query id, in file order; every other line — custom_id absent (as in the
Google request format, which carries the id under "key"), non-string,
or unknown — is silently dropped. -/
theorem joinEmitsIffMatched (clean : String → String) (provider mk : String)
    (queries : List Query) (lines : List Json) (recs : List ResultRecord)
    (h : processLines clean provider mk queries lines = Except.ok recs) :
    recs.map (fun r => r.id) = lines.filterMap (matchedId queries) := by
  induction lines generalizing recs with
  | nil =>
    rw [processLines] at h
    cases h
    rfl
  | cons line rest ih =>
    rw [processLines] at h
    cases hpl : processLine clean provider mk queries line with
    | error e => rw [hpl] at h; cases h
    | ok o =>
      rw [hpl] at h
      rw [List.filterMap_cons]
      have hmid : matchedId queries line = o.map fun r => r.id := by
        unfold processLine at hpl
        unfold matchedId
        cases hg : customIdOf line with
        | none => rw [hg] at hpl; cases hpl; rfl
        | some cid =>
          rw [hg] at hpl
          simp only [] at hpl
          cases hq : queryMapGet queries cid with
          | none =>
            rw [hq] at hpl
            cases hpl
            simp [hq]
          | some q =>
            rw [hq] at hpl
            simp only [] at hpl
            simp only [hq, Option.isSome_some, if_pos]
            cases hrt : response_text_of provider line with
            | jstr s =>
              rw [hrt] at hpl
              cases hpl
              rfl
            | null => rw [hrt] at hpl; cases hpl
            | jbool b => rw [hrt] at hpl; cases hpl
            | jnum n => rw [hrt] at hpl; cases hpl
            | jarr xs => rw [hrt] at hpl; cases hpl
            | jobj ms => rw [hrt] at hpl; cases hpl
      cases o with
      | none =>
        rw [hmid]
        simp only [Option.map_none']
        exact ih recs h
      | some rec =>
        cases hr : processLines clean provider mk queries rest with
        | error e => rw [hr] at h; cases h
        | ok recs' =>
          rw [hr] at h
          cases h
          rw [hmid]
          simp only [Option.map_some', List.map_cons]
          rw [ih recs' hr]



/-- Lines whose response_text is a string (sentinel included) never
raise in the loop body. -/
theorem processLine_ok_of_str (clean : String → String) (provider mk : String)
    (queries : List Query) (obj : Json)
    (hb : ∃ s, response_text_of provider obj = Json.jstr s) :
    ∃ r, processLine clean provider mk queries obj = Except.ok r := by
  obtain ⟨s, hs⟩ := hb
  unfold processLine
  cases hg : customIdOf obj with
  | none => exact ⟨none, rfl⟩
  | some cid =>
    simp only []
    cases hq : queryMapGet queries cid with
    | none => exact ⟨none, rfl⟩
    | some q =>
      rw [hs]
      exact ⟨_, rfl⟩

/-- Claim C9: a result line whose JSON shape does not lead to the provider's
nested text path makes extraction yield the explicit sentinel string
rather than raising; a file of such lines (mixed with well-shaped ones)
is still processed to the end, and the job is still marked processed. -/
theorem extractionRobust :
    (∀ obj, extract_openai obj = none →
       response_text_of "openai" obj = Json.jstr extractionSentinel) ∧
    (∀ obj, extract_openai obj = none →
       response_text_of "openai_compatible" obj = Json.jstr extractionSentinel) ∧
    (∀ obj, extract_anthropic obj = none →
       response_text_of "anthropic" obj = Json.jstr extractionSentinel) ∧
    (∀ obj, extract_google obj = none →
       response_text_of "google" obj = Json.jstr extractionSentinel) ∧
    (∀ clean provider mk (queries : List Query) (lines : List Json),
       (∀ l ∈ lines, ∃ s, response_text_of provider l = Json.jstr s) →
       ∃ recs, processLines clean provider mk queries lines = Except.ok recs) ∧
    (∀ clean (queries : List Query) resultFiles (job : JobRecord) p lines,
       job.status = "completed" → job.processed = false →
       job.result_file = some p → lookupFile resultFiles p = some lines →
       (∀ l ∈ lines, ∃ s, response_text_of job.provider l = Json.jstr s) →
       ∃ recs, processOneJob clean queries resultFiles job =
         Except.ok ({ job with processed := true },
                    some (job.output_dir ++ "/results_summary_batch.json", recs))) := by
  have hlines : ∀ clean provider mk (queries : List Query) (lines : List Json),
      (∀ l ∈ lines, ∃ s, response_text_of provider l = Json.jstr s) →
      ∃ recs, processLines clean provider mk queries lines = Except.ok recs := by
    intro clean provider mk queries lines hb
    induction lines with
    | nil => exact ⟨[], rfl⟩
    | cons line rest ih =>
      obtain ⟨r, hr⟩ := processLine_ok_of_str clean provider mk queries line
        (hb line (List.mem_cons_self _ _))
      obtain ⟨recs, hrecs⟩ := ih fun l hl => hb l (List.mem_cons_of_mem _ hl)
      rw [processLines, hr, hrecs]
      cases r with
      | none => exact ⟨recs, rfl⟩
      | some rec => exact ⟨rec :: recs, rfl⟩
  refine ⟨?_, ?_, ?_, ?_, hlines, ?_⟩
  · intro obj h
    unfold response_text_of
    rw [if_pos (Or.inl rfl), h]
  · intro obj h
    unfold response_text_of
    rw [if_pos (Or.inr rfl), h]
  · intro obj h
    unfold response_text_of
    rw [if_neg (by decide), if_pos rfl, h]
  · intro obj h
    unfold response_text_of
    rw [if_neg (by decide), if_neg (by decide), if_pos rfl, h]
  · intro clean queries resultFiles job p lines hc hnp hrf hlf hb
    obtain ⟨recs, hrecs⟩ := hlines clean job.provider job.model_key queries lines hb
    refine ⟨recs, ?_⟩
    unfold processOneJob
    rw [if_pos ⟨hc, hnp⟩, hrf]
    simp only []
    rw [hlf]
    simp only []
    rw [hrecs]

/-- Second application of the loop body to an already-updated record is
the identity with no write. -/
theorem processOneJob_idem (clean : String → String) (queries : List Query)
    (resultFiles : ResultFiles) (job job' : JobRecord)
    (w : Option (String × List ResultRecord))
    (h : processOneJob clean queries resultFiles job = Except.ok (job', w)) :
    processOneJob clean queries resultFiles job' = Except.ok (job', none) := by
  rcases processOneJob_ok_cases clean queries resultFiles job job' w h with
    ⟨rfl, rfl⟩ | ⟨hc, hnp, rfl⟩
  · exact h
  · unfold processOneJob
    rw [if_neg (by simp)]

/-- Claim C5: the normalizer is idempotent: a second run over the state a
successful run produced changes nothing — every job it processed is now
skipped via the processed flag, every job it skipped is skipped again,
and no canonical file is rewritten, so outputs stay byte-identical. -/
theorem normalizerIdempotent (clean : String → String) (queries : List Query)
    (resultFiles : ResultFiles) (t : JobTable) (fin : FinalFiles)
    (t' : JobTable) (fin' : FinalFiles)
    (h : process_results_to_final_json clean queries resultFiles t fin = Except.ok (t', fin')) :
    process_results_to_final_json clean queries resultFiles t' fin' = Except.ok (t', fin') := by
  induction t generalizing fin t' fin' with
  | nil =>
    rw [process_results_to_final_json] at h
    cases h
    rfl
  | cons p rest ih =>
    obtain ⟨bid, job⟩ := p
    rw [process_results_to_final_json] at h
    cases ho : processOneJob clean queries resultFiles job with
    | error e => rw [ho] at h; cases h
    | ok pr =>
      obtain ⟨job', w⟩ := pr
      rw [ho] at h
      simp only [] at h
      cases hr : process_results_to_final_json clean queries resultFiles rest
          (applyWrite fin w) with
      | error e => rw [hr] at h; cases h
      | ok pr2 =>
        obtain ⟨rest', fin2⟩ := pr2
        rw [hr] at h
        cases h
        rw [process_results_to_final_json]
        rw [processOneJob_idem clean queries resultFiles job job' w ho]
        simp only [applyWrite]
        rw [ih _ _ _ hr]



/-- Example queries for the witnesses. -/
def exQueries : List Query :=
  [{ id := "1", query := "list works" }, { id := "2", query := "list people" }]

/-- A well-shaped OpenAI result line for query 1. -/
def exLineMatched : Json :=
  Json.jobj [("custom_id", Json.jstr "1"),
    ("response", Json.jobj [("body", Json.jobj [("choices", Json.jarr
      [Json.jobj [("message", Json.jobj [("content", Json.jstr "SELECT 1")])]])])])]

/-- A line carrying its id under "key", as the Google request format
does: it has no custom_id. -/
def exLineKeyed : Json :=
  Json.jobj [("key", Json.jstr "2"), ("response", Json.jobj [])]

/-- A line with an unknown custom_id. -/
def exLineUnknown : Json :=
  Json.jobj [("custom_id", Json.jstr "9")]

/-- The canonical record the matched line yields (with the identity as
clean_sparql). -/
def exRecOne : ResultRecord :=
  { id := "1", query := "list works", model := "gpt", generated_sparql := "SELECT 1",
    ground_truth_sparql := none, generated_count := -1, ground_truth_count := -1,
    is_match := false, execution_error := "Execution Skipped",
    raw_llm_response := "SELECT 1" }

theorem joinEmitsIffMatched_witness :
    ([exRecOne].map fun r => r.id) =
      [exLineMatched, exLineKeyed, exLineUnknown].filterMap (matchedId exQueries) :=
  joinEmitsIffMatched (fun s => s) "openai" "gpt" exQueries
    [exLineMatched, exLineKeyed, exLineUnknown] [exRecOne] (by rfl)

/-- An OpenAI result line whose shape has no response body at all. -/
def exLineMalformed : Json :=
  Json.jobj [("custom_id", Json.jstr "1"), ("error", Json.jstr "overloaded")]

theorem extractionRobust_witness :
    response_text_of "openai" exLineMalformed = Json.jstr extractionSentinel :=
  extractionRobust.1 exLineMalformed rfl

/-- A completed, unprocessed job whose result file exists. -/
def exCompletedJob : JobRecord :=
  { provider := "openai", model_key := "gpt", status := "completed",
    timestamp := "2025-01-01T00:00:00", output_dir := "outputs",
    input_file := some "outputs/batch_input_gpt.jsonl",
    result_file := some "outputs/batch_results_b1.jsonl" }

/-- The raw result store holding that file. -/
def exResultFiles : ResultFiles :=
  [("outputs/batch_results_b1.jsonl", [exLineMatched, exLineKeyed, exLineUnknown])]

/-- The state a first normalizer run produces from exCompletedJob. -/
def exProcessedTable : JobTable :=
  [("b1", { exCompletedJob with processed := true })]

/-- The canonical file that run writes. -/
def exFinalFiles : FinalFiles :=
  [("outputs/results_summary_batch.json", [exRecOne])]

theorem normalizerIdempotent_witness :
    process_results_to_final_json (fun s => s) exQueries exResultFiles
        exProcessedTable exFinalFiles = Except.ok (exProcessedTable, exFinalFiles) :=
  normalizerIdempotent (fun s => s) exQueries exResultFiles
    [("b1", exCompletedJob)] [] exProcessedTable exFinalFiles (by rfl)

/-!
The job store: atomicity and round-trip.
-/

/-- A stored pending-job table (the previous store content). -/
def exStoredOld : StoredTable :=
  [("b1", [("provider", FlatVal.fstr "openai"), ("model_key", FlatVal.fstr "gpt"),
           ("status", FlatVal.fstr "pending"),
           ("timestamp", FlatVal.fstr "2025-01-01T00:00:00"),
           ("output_dir", FlatVal.fstr "outputs"),
           ("input_file", FlatVal.fstr "outputs/batch_input_gpt.jsonl")])]

/-- The same table after completion and processing (the content being
saved when the write is interrupted). -/
def exStoredNew : StoredTable :=
  [("b1", [("provider", FlatVal.fstr "openai"), ("model_key", FlatVal.fstr "gpt"),
           ("status", FlatVal.fstr "completed"),
           ("timestamp", FlatVal.fstr "2025-01-01T00:00:00"),
           ("output_dir", FlatVal.fstr "outputs"),
           ("input_file", FlatVal.fstr "outputs/batch_input_gpt.jsonl"),
           ("result_file", FlatVal.fstr "outputs/batch_results_b1.jsonl"),
           ("processed", FlatVal.fbool true)])]

/-- Claim C6, counterexample: save_jobs opens the store with open(..., 'w'),
truncating it, and writes the dump in place; a save interrupted after 0
bytes (and likewise after 40 bytes) leaves a file the next load_jobs
fails to parse — observing neither the previous nor the new table. -/
theorem truncatedSaveUnreadable :
    load_jobs (some (save_jobs_truncated exStoredNew 0)) = none ∧
    load_jobs (some (save_jobs_truncated exStoredNew 40)) = none ∧
    load_jobs (some (save_jobs_truncated exStoredNew 0)) ≠ some (tableJson exStoredOld) ∧
    load_jobs (some (save_jobs_truncated exStoredNew 0)) ≠ some (tableJson exStoredNew) := by
  refine ⟨rfl, rfl, ?_, ?_⟩
  · intro hcontra
    exact Option.noConfusion ((rfl : load_jobs (some (save_jobs_truncated exStoredNew 0)) = none) ▸ hcontra)
  · intro hcontra
    exact Option.noConfusion ((rfl : load_jobs (some (save_jobs_truncated exStoredNew 0)) = none) ▸ hcontra)

/-- Claim C6, amended: the save is not atomic — it truncates the store file in
place and writes the serialized table directly, so an interrupted save
can leave a strict prefix (such as the empty file) that the next
load_jobs fails to parse; only a save that ran to completion loads back
as the saved table. -/
theorem saveReadableOnlyWhenComplete (t : StoredTable) (h : wellFormedTable t = true) :
    load_jobs (some (save_jobs_truncated t (dumpTable t).length)) = some (tableJson t) ∧
    load_jobs (some (save_jobs_truncated t 0)) = none := by
  constructor
  · rw [save_jobs_truncated, List.take_length]
    simpa [load_jobs] using dump_parse_roundtrip t h
  · rfl

theorem saveReadableOnlyWhenComplete_witness :
    load_jobs (some (save_jobs_truncated exStoredOld (dumpTable exStoredOld).length)) =
      some (tableJson exStoredOld) :=
  (saveReadableOnlyWhenComplete exStoredOld (by decide)).1

/-- Claim C7: for every well-formed job table, saving with save_jobs and then
loading with load_jobs returns exactly the saved JSON object mapping
batch identifiers to job records. -/
theorem saveLoadRoundTrip (t : StoredTable) (h : wellFormedTable t = true) :
    load_jobs (some (save_jobs t)) = some (tableJson t) := by
  simpa [load_jobs, save_jobs] using dump_parse_roundtrip t h

theorem saveLoadRoundTrip_witness :
    load_jobs (some (save_jobs exStoredNew)) = some (tableJson exStoredNew) :=
  saveLoadRoundTrip exStoredNew (by decide)



/-- Python dict lookup jobs[batch_id] on the in-memory table. -/
def lookupRec (t : JobTable) (batch_id : String) : Option JobRecord :=
  (t.find? fun p => p.1 = batch_id).map fun p => p.2

theorem lookupRec_setKey (t : JobTable) (batch_id : String) (rec : JobRecord) :
    lookupRec (setKey t batch_id rec) batch_id = some rec := by
  induction t with
  | nil => simp [setKey, lookupRec, List.find?]
  | cons p rest ih =>
    obtain ⟨k, r⟩ := p
    rw [setKey]
    by_cases hk : k = batch_id
    · rw [if_pos hk]
      simp [lookupRec, List.find?, hk]
    · rw [if_neg hk]
      simpa [lookupRec, List.find?, hk] using ih

/-- C10: a missing metadata file makes load_jobs return the empty table
(not raise); a submit then records a fresh pending record under the new
batch id; and a completed job whose result file is unset or gone is
skipped by the normalizer loop body: its record (processed still false)
and the output files are untouched, so it stays retriable. -/
theorem missingFilesAreBenign :
    load_jobs none = some (Json.jobj []) ∧
    (∀ (t : JobTable) bid mk ts od inf,
       lookupRec (recordSubmission t bid (submit_openai_record mk ts od inf)) bid =
         some (submit_openai_record mk ts od inf) ∧
       (submit_openai_record mk ts od inf).status = "pending" ∧
       (submit_openai_record mk ts od inf).result_file = none ∧
       (submit_openai_record mk ts od inf).processed = false) ∧
    (∀ clean queries resultFiles (job : JobRecord),
       job.status = "completed" → job.processed = false →
       (job.result_file = none ∨
        ∃ p, job.result_file = some p ∧ lookupFile resultFiles p = none) →
       processOneJob clean queries resultFiles job = Except.ok (job, none)) ∧
    (∀ clean queries resultFiles bid (job : JobRecord) fin,
       processOneJob clean queries resultFiles job = Except.ok (job, none) →
       process_results_to_final_json clean queries resultFiles [(bid, job)] fin =
         Except.ok ([(bid, job)], fin)) := by
  refine ⟨rfl, ?_, ?_, ?_⟩
  · intro t bid mk ts od inf
    exact ⟨lookupRec_setKey t bid _, rfl, rfl, rfl⟩
  · intro clean queries resultFiles job hc hp hmiss
    unfold processOneJob
    rw [if_pos ⟨hc, hp⟩]
    rcases hmiss with hnone | ⟨p, hsome, hlf⟩
    · rw [hnone]
    · rw [hsome]
      simp only []
      rw [hlf]
  · intro clean queries resultFiles bid job fin h
    rw [process_results_to_final_json, h]
    simp only [applyWrite]
    rw [process_results_to_final_json]

theorem missingFilesAreBenign_witness :
    processOneJob (fun s => s) [] []
        { provider := "openai", model_key := "gpt", status := "completed",
          timestamp := "t", output_dir := "outputs",
          result_file := some "outputs/gone.jsonl" } =
      Except.ok ({ provider := "openai", model_key := "gpt", status := "completed",
                   timestamp := "t", output_dir := "outputs",
                   result_file := some "outputs/gone.jsonl" }, none) :=
  missingFilesAreBenign.2.2.1 (fun s => s) [] [] _ rfl rfl
    (Or.inr ⟨"outputs/gone.jsonl", rfl, rfl⟩)


end BatchManager
